import Mathlib

/-!
Verification of the teams/users/companies data-access and serialization core
(`teams/app.py`): entity model, query layer (`get_all_teams`,
`get_team_by_name`, `get_team_by_company`), projection layer
(`teams_to_json`, `users_to_json`, `company_to_json`) and ingestion
(`add_post_json`).  The relational store is modelled as explicit lists of
rows; the ORM backref `team.members` is the list of user rows whose
`team_id` equals the team's id, in store (insertion) order, and a user's
`company` backref is carried inline on the user row.
-/

namespace TeamsApp

/-- Persisted company row (`companies` table: `id`, `name`). -/
structure Company where
  id : Nat
  name : String
deriving DecidableEq

/-- Persisted team row (`teams` table: `id`, `name`). -/
structure Team where
  id : Nat
  name : String
deriving DecidableEq

/-- Persisted user row (`users` table: `id`, `name`, `email`, `team_id`,
`company_id`).  The `company` backref is carried inline: it stands for the
company row referenced by the user's `company_id`. -/
structure User where
  id : Nat
  name : String
  email : String
  teamId : Nat
  company : Company
deriving DecidableEq

/-- The relational store: the three tables, each a list of rows in
insertion order. -/
structure Store where
  teams : List Team
  users : List User
  companies : List Company
deriving DecidableEq

/-- `get_all_teams`: `Team.query.all()` — every persisted team, in store
order. -/
def get_all_teams (s : Store) : List Team :=
  s.teams

/-- `get_team_by_name`: `Team.query.filter_by(name=name)` — the persisted
teams whose `name` column equals the argument exactly. -/
def get_team_by_name (s : Store) (name : String) : List Team :=
  s.teams.filter (fun t => t.name == name)

/-- The ORM relationship `team.members`: the user rows whose `team_id`
equals the team's id, in store order. -/
def Team.members (s : Store) (t : Team) : List User :=
  s.users.filter (fun u => u.teamId == t.id)

/-- One step of the inner loop of `get_team_by_company`: Python evaluates
`member.company.name == companyname and (team not in filtered_teams)` and
appends the team when the conjunction holds. -/
def memberStep (companyname : String) (team : Team) (acc : List Team)
    (member : User) : List Team :=
  if member.company.name = companyname ∧ team ∉ acc then acc ++ [team] else acc

/-- `get_team_by_company`: for each team, for each member, append the team
to `filtered_teams` when the member's company name matches and the team is
not already in `filtered_teams`. -/
def get_team_by_company (s : Store) (companyname : String) : List Team :=
  (get_all_teams s).foldl
    (fun filtered team => (Team.members s team).foldl (memberStep companyname team) filtered)
    []

/-- Plain JSON documents: the Python values (`str`, `int`, `list`, `dict`)
that the projection layer builds and `ujson.dumps` serializes.  A Python
`str` return value of a projector is `Json.str`. -/
inductive Json where
  | str (s : String)
  | num (n : Nat)
  | arr (l : List Json)
  | obj (l : List (String × Json))

/-- Escape one character for a JSON string literal. -/
def escapeChar (c : Char) : String :=
  if c = '"' then "\\\"" else if c = '\\' then "\\\\" else String.singleton c

/-- Escape a string for a JSON string literal (model of the quoting done by
`ujson.dumps`; names in this development use no control characters). -/
def escape (s : String) : String :=
  String.join (s.toList.map escapeChar)

mutual

/-- Model of `ujson.dumps`: render a document as JSON text. -/
def Json.dumps : Json → String
  | .str s => "\"" ++ escape s ++ "\""
  | .num n => toString n
  | .arr l => "[" ++ dumpsList l ++ "]"
  | .obj l => "\x7b" ++ dumpsObj l ++ "\x7d"

/-- Comma-separated rendering of the elements of a JSON array. -/
def dumpsList : List Json → String
  | [] => ""
  | [j] => Json.dumps j
  | j :: rest => Json.dumps j ++ "," ++ dumpsList rest

/-- Comma-separated rendering of the key/value pairs of a JSON object, in
insertion order. -/
def dumpsObj : List (String × Json) → String
  | [] => ""
  | [(k, v)] => "\"" ++ escape k ++ "\":" ++ Json.dumps v
  | (k, v) :: rest => "\"" ++ escape k ++ "\":" ++ Json.dumps v ++ "," ++ dumpsObj rest

end

/-- `company_to_json`: the company document `{name, id}`; with `dump=True`
the document is serialized to a string, with `dump=False` the raw dict is
returned. -/
def company_to_json (company : Company) (dump : Bool := true) : Json :=
  let company_dict := Json.obj [("name", Json.str company.name), ("id", Json.num company.id)]
  if dump then Json.str (Json.dumps company_dict) else company_dict

/-- `users_to_json`: one document `{id, name, company, email}` per user,
the company embedded via `company_to_json(..., dump=False)`; with
`dump=True` the list is serialized to a string, with `dump=False` the raw
list is returned. -/
def users_to_json (users : List User) (dump : Bool := true) : Json :=
  let user_json := Json.arr (users.map (fun user =>
    Json.obj [("id", Json.num user.id), ("name", Json.str user.name),
      ("company", company_to_json user.company false), ("email", Json.str user.email)]))
  if dump then Json.str (Json.dumps user_json) else user_json

/-- `teams_to_json`: one document `{id, name, members}` per team, members
embedded via `users_to_json(team.members, dump=False)`; the whole result is
serialized once with `json.dumps` on return. -/
def teams_to_json (s : Store) (teams : List Team) : String :=
  let team_json := teams.map (fun team =>
    Json.obj [("id", Json.num team.id), ("name", Json.str team.name),
      ("members", users_to_json (Team.members s team) false)])
  Json.dumps (Json.arr team_json)

/-- An inbound member entry as a JSON dict: each expected key may be
missing (`none`), in which case reading it raises `KeyError`. -/
structure RawMember where
  name : Option String
  email : Option String
  company : Option String
deriving DecidableEq

/-- An inbound ingestion document as a JSON dict: `{name, members}`, each
key possibly missing. -/
structure RawDoc where
  name : Option String
  members : Option (List RawMember)
deriving DecidableEq

/-- A `Company` object freshly constructed during one ingestion call,
before persistence: it has no database id yet, only its Python object
identity `pyId` (distinct for each construction) and its `name`. -/
structure NewCompany where
  pyId : Nat
  name : String
deriving DecidableEq

/-- Python's `==` on these model objects is the default object identity:
two `Company` objects are equal exactly when they are the same object. -/
def companyEq (a b : NewCompany) : Bool :=
  a.pyId == b.pyId

/-- A `User` object freshly constructed during one ingestion call; its
`company` attribute references a `Company` object of the same call. -/
structure NewUser where
  name : String
  email : String
  company : NewCompany
deriving DecidableEq

/-- The member loop of `add_post_json`: for each member dict, read
`member['company']` and construct a fresh `Company`, append it to
`companies` unless `company in companies` (Python identity equality), then
read `member['name']` and `member['email']` and construct the `User`.
A missing key aborts the whole call with that key's `KeyError`. -/
def stageMembers : List RawMember → Nat → List NewCompany → List NewUser →
    Except String (List NewCompany × List NewUser)
  | [], _, companies, users => .ok (companies, users)
  | m :: rest, i, companies, users =>
    match m.company with
    | none => .error "company"
    | some cname =>
      let company : NewCompany := ⟨i, cname⟩
      let companies' :=
        if companies.any (fun c => companyEq c company) then companies
        else companies ++ [company]
      match m.name with
      | none => .error "name"
      | some uname =>
        match m.email with
        | none => .error "email"
        | some email =>
          stageMembers rest (i + 1) companies' (users ++ [⟨uname, email, company⟩])

/-- The next team id the store assigns on commit (autoincrement: one more
than the largest id in the table). -/
def freshTeamId (s : Store) : Nat :=
  (s.teams.map Team.id).foldr max 0 + 1

/-- The next company id the store assigns on commit. -/
def freshCompanyId (s : Store) : Nat :=
  (s.companies.map Company.id).foldr max 0 + 1

/-- The next user id the store assigns on commit. -/
def freshUserId (s : Store) : Nat :=
  (s.users.map User.id).foldr max 0 + 1

/-- Commit of the staged companies: the store assigns consecutive ids
starting at `base`, in staging order. -/
def assignCompanyIds : List NewCompany → Nat → List Company
  | [], _ => []
  | c :: rest, base => ⟨base, c.name⟩ :: assignCompanyIds rest (base + 1)

/-- The persisted row of a staged user's `company` object: the same object
was staged in `staged`, so on commit it carries the id assigned at its
position there. -/
def companyRowFor (staged : List NewCompany) (cbase : Nat) (nc : NewCompany) : Company :=
  ⟨cbase + staged.findIdx (fun c => companyEq c nc), nc.name⟩

/-- Commit of the staged users: consecutive ids from `ubase`, the new
team's id as `team_id`, and each user's `company` object resolved to its
persisted row. -/
def assignUserIds (staged : List NewCompany) (cbase : Nat) (tid : Nat) :
    List NewUser → Nat → List User
  | [], _ => []
  | u :: rest, ubase =>
    ⟨ubase, u.name, u.email, tid, companyRowFor staged cbase u.company⟩ ::
      assignUserIds staged cbase tid rest (ubase + 1)

/-- The single persist operation at the end of `add_post_json`
(`db.session.add(team)`, `add_all(companies)`, `add_all(users)` and the
commit on teardown): rows are appended to the tables and ids assigned. -/
def persist (s : Store) (tname : String) (companies : List NewCompany)
    (users : List NewUser) : Store :=
  let tid := freshTeamId s
  let cbase := freshCompanyId s
  let ubase := freshUserId s
  { teams := s.teams ++ [⟨tid, tname⟩],
    users := s.users ++ assignUserIds companies cbase tid users ubase,
    companies := s.companies ++ assignCompanyIds companies cbase }

/-- `add_post_json`: read `json_data['name']`, construct the team, iterate
`json_data['members']` staging companies and users, then hand everything to
the store in one persist step.  A missing key raises that key's `KeyError`
before anything is added to the session. -/
def add_post_json (json_data : RawDoc) (s : Store) : Except String Store :=
  match json_data.name with
  | none => .error "name"
  | some tname =>
    match json_data.members with
    | none => .error "members"
    | some members =>
      match stageMembers members 0 [] [] with
      | .error e => .error e
      | .ok (companies, users) => .ok (persist s tname companies users)

/-- The store visible after an `add_post_json` request: an uncaught
structural error aborts the call before any `db.session.add`, so the store
is unchanged. -/
def run_add_team (json_data : RawDoc) (s : Store) : Store :=
  match add_post_json json_data s with
  | .ok s' => s'
  | .error _ => s

/-- A well-formed inbound member entry (all keys present). -/
structure Member where
  name : String
  email : String
  company : String
deriving DecidableEq

/-- A well-formed ingestion document (all keys present). -/
structure Doc where
  name : String
  members : List Member
deriving DecidableEq

/-- The JSON dict of a well-formed member entry. -/
def Member.toRaw (m : Member) : RawMember :=
  ⟨some m.name, some m.email, some m.company⟩

/-- The JSON dict of a well-formed ingestion document. -/
def Doc.toRaw (d : Doc) : RawDoc :=
  ⟨some d.name, some (d.members.map Member.toRaw)⟩

/-- The sequence of `Company` objects the member loop constructs, one per
member entry, with the object identities it hands out from `i` on. -/
def companiesFrom : List Member → Nat → List NewCompany
  | [], _ => []
  | m :: rest, i => ⟨i, m.company⟩ :: companiesFrom rest (i + 1)

/-- The sequence of `User` objects the member loop constructs, one per
member entry, each holding the `Company` object of its own iteration. -/
def usersFrom : List Member → Nat → List NewUser
  | [], _ => []
  | m :: rest, i => ⟨m.name, m.email, ⟨i, m.company⟩⟩ :: usersFrom rest (i + 1)

/-- The companies the member loop stages for persistence (empty when the
loop aborts on a missing key). -/
def stagedCompanies (d : Doc) : List NewCompany :=
  match stageMembers (d.members.map Member.toRaw) 0 [] [] with
  | .ok (companies, _) => companies
  | .error _ => []

/-- The first missing key among a member list, in the code's access order:
for each member, `company`, then `name`, then `email`. -/
def firstMissingMemberKey : List RawMember → Option String
  | [] => none
  | m :: rest =>
    if m.company = none then some "company"
    else if m.name = none then some "name"
    else if m.email = none then some "email"
    else firstMissingMemberKey rest

/-- The first missing key of an ingestion document, in the code's access
order: `name`, then `members`, then the member keys. -/
def firstMissingKey (d : RawDoc) : Option String :=
  if d.name = none then some "name"
  else
    match d.members with
    | none => some "members"
    | some ms => firstMissingMemberKey ms

/-- Referential integrity as the store maintains it: every persisted
user's `team_id` references a persisted team. -/
def Store.WF (s : Store) : Prop :=
  ∀ u ∈ s.users, ∃ t ∈ s.teams, u.teamId = t.id

/-- Append a team unless it is already present (the effect of
`if team not in filtered_teams: filtered_teams.append(team)`). -/
def dedupAppend (acc : List Team) (t : Team) : List Team :=
  if t ∈ acc then acc else acc ++ [t]

/-- Keep the first occurrence of every element, preserving order. -/
def dedupFirst (l : List Team) : List Team :=
  l.foldl dedupAppend []

/-- Whether some member of the team has the given company name. -/
def team_has_company_member (s : Store) (companyname : String) (t : Team) : Bool :=
  (Team.members s t).any (fun u => u.company.name == companyname)

/-- `get_team_by_company` instrumented with a counter: the second
component counts how often the code evaluates
`member.company.name == companyname` (the left conjunct, which Python
evaluates for every member visited). -/
def get_team_by_company_count (s : Store) (companyname : String) : List Team × Nat :=
  (get_all_teams s).foldl
    (fun acc team => (Team.members s team).foldl
      (fun acc2 member =>
        if member.company.name = companyname ∧ team ∉ acc2.1 then (acc2.1 ++ [team], acc2.2 + 1)
        else (acc2.1, acc2.2 + 1))
      acc)
    ([], 0)

/-- Comparisons a per-team short-circuit scan performs: members are
compared until the first match, after which the rest are skipped. -/
def members_short_scan : List User → String → Nat
  | [], _ => 0
  | m :: rest, c => if m.company.name = c then 1 else 1 + members_short_scan rest c

/-- Reference implementation following the spec's words: for each team, a
short-circuiting scan of its members — the first member whose company name
equals the target qualifies the team, and that team's subsequent members
are not re-checked.  The second component counts its comparisons. -/
def spec_short_circuit_scan (s : Store) (companyname : String) : List Team × Nat :=
  (get_all_teams s).foldl
    (fun acc team =>
      (if (∃ u ∈ Team.members s team, u.company.name = companyname) ∧ team ∉ acc.1
         then acc.1 ++ [team] else acc.1,
       acc.2 + members_short_scan (Team.members s team) companyname))
    ([], 0)

/-- The total number of members over all teams, i.e. the number of
company-name comparisons a full (non-short-circuiting) scan performs. -/
def totalMemberComparisons (s : Store) : Nat :=
  ((get_all_teams s).map (fun t => (Team.members s t).length)).sum

/-- Once the team is in the accumulator, the inner member loop of
`get_team_by_company` never changes it. -/
theorem foldl_memberStep_of_mem (c : String) (t : Team) :
    ∀ (ms : List User) (acc : List Team), t ∈ acc →
      ms.foldl (memberStep c t) acc = acc := by
  intro ms
  induction ms with
  | nil => intro acc _; rfl
  | cons m rest ih =>
    intro acc h
    have hstep : memberStep c t acc m = acc := by
      unfold memberStep
      rw [if_neg]
      intro hc
      exact hc.2 h
    rw [List.foldl_cons, hstep, ih acc h]

/-- While the team is not yet in the accumulator, the inner member loop
appends it exactly when some member's company name matches. -/
theorem foldl_memberStep_of_not_mem (c : String) (t : Team) :
    ∀ (ms : List User) (acc : List Team), t ∉ acc →
      ms.foldl (memberStep c t) acc =
        if ms.any (fun u => u.company.name == c) then acc ++ [t] else acc := by
  intro ms
  induction ms with
  | nil => intro acc _; simp
  | cons m rest ih =>
    intro acc h
    by_cases hm : m.company.name = c
    · have hstep : memberStep c t acc m = acc ++ [t] := by
        unfold memberStep
        rw [if_pos ⟨hm, h⟩]
      have hmem : t ∈ acc ++ [t] := by simp
      rw [List.foldl_cons, hstep, foldl_memberStep_of_mem c t rest _ hmem]
      simp [List.any_cons, hm]
    · have hstep : memberStep c t acc m = acc := by
        unfold memberStep
        rw [if_neg]
        intro hc
        exact hm hc.1
      rw [List.foldl_cons, hstep, ih acc h]
      simp [List.any_cons, hm]

/-- The nested member scan of `get_team_by_company` is the fold that
appends each team with a matching member unless already present. -/
theorem foldl_team_scan_eq (s : Store) (c : String) :
    ∀ (teams acc : List Team),
      teams.foldl
          (fun filtered team => (Team.members s team).foldl (memberStep c team) filtered) acc =
        (teams.filter (team_has_company_member s c)).foldl dedupAppend acc := by
  intro teams
  induction teams with
  | nil => intro acc; rfl
  | cons t rest ih =>
    intro acc
    rw [List.foldl_cons]
    by_cases hmem : t ∈ acc
    · rw [foldl_memberStep_of_mem c t _ acc hmem]
      cases hq : team_has_company_member s c t with
      | true =>
        rw [List.filter_cons_of_pos hq, List.foldl_cons]
        have hd : dedupAppend acc t = acc := by
          unfold dedupAppend
          rw [if_pos hmem]
        rw [hd, ih acc]
      | false =>
        rw [List.filter_cons_of_neg (by simp [hq]), ih acc]
    · rw [foldl_memberStep_of_not_mem c t _ acc hmem]
      cases hq : team_has_company_member s c t with
      | true =>
        rw [List.filter_cons_of_pos hq, List.foldl_cons]
        have hd : dedupAppend acc t = acc ++ [t] := by
          unfold dedupAppend
          rw [if_neg hmem]
        have hany : (Team.members s t).any (fun u => u.company.name == c) = true := hq
        rw [hany, if_pos rfl, hd, ih (acc ++ [t])]
      | false =>
        rw [List.filter_cons_of_neg (by simp [hq])]
        have hany : (Team.members s t).any (fun u => u.company.name == c) = false := hq
        rw [hany]
        simp only [Bool.false_eq_true, if_false]
        exact ih acc

/-- `get_team_by_company` keeps, in order, the first occurrence of each
team that has a member with the given company name. -/
theorem get_team_by_company_eq_dedupFirst (s : Store) (c : String) :
    get_team_by_company s c =
      dedupFirst ((get_all_teams s).filter (team_has_company_member s c)) := by
  unfold get_team_by_company dedupFirst
  exact foldl_team_scan_eq s c (get_all_teams s) []

/-- A team already present is not appended again. -/
theorem dedupAppend_of_mem {acc : List Team} {t : Team} (h : t ∈ acc) :
    dedupAppend acc t = acc := by
  unfold dedupAppend
  rw [if_pos h]

/-- A team not yet present is appended at the end. -/
theorem dedupAppend_of_not_mem {acc : List Team} {t : Team} (h : t ∉ acc) :
    dedupAppend acc t = acc ++ [t] := by
  unfold dedupAppend
  rw [if_neg h]

/-- Membership in the first-occurrence dedup fold. -/
theorem mem_foldl_dedupAppend :
    ∀ (l acc : List Team) (x : Team), x ∈ l.foldl dedupAppend acc ↔ x ∈ acc ∨ x ∈ l := by
  intro l
  induction l with
  | nil => intro acc x; simp
  | cons y rest ih =>
    intro acc x
    rw [List.foldl_cons, ih]
    unfold dedupAppend
    by_cases h : y ∈ acc
    · rw [if_pos h]
      simp only [List.mem_cons]
      constructor
      · rintro (hx | hx)
        · exact Or.inl hx
        · exact Or.inr (Or.inr hx)
      · rintro (hx | rfl | hx)
        · exact Or.inl hx
        · exact Or.inl h
        · exact Or.inr hx
    · rw [if_neg h]
      simp only [List.mem_append, List.mem_singleton, List.mem_cons]
      tauto

/-- The first-occurrence dedup fold preserves freedom from duplicates. -/
theorem nodup_foldl_dedupAppend :
    ∀ (l acc : List Team), acc.Nodup → (l.foldl dedupAppend acc).Nodup := by
  intro l
  induction l with
  | nil => intro acc h; exact h
  | cons y rest ih =>
    intro acc h
    rw [List.foldl_cons]
    apply ih
    unfold dedupAppend
    by_cases hy : y ∈ acc
    · rw [if_pos hy]
      exact h
    · rw [if_neg hy]
      simp [List.nodup_append, h, hy]

/-- The first-occurrence dedup fold appends a subsequence of its input. -/
theorem foldl_dedupAppend_append_sublist :
    ∀ (l acc : List Team), ∃ l', l.foldl dedupAppend acc = acc ++ l' ∧ l'.Sublist l := by
  intro l
  induction l with
  | nil => intro acc; exact ⟨[], by simp, List.nil_sublist []⟩
  | cons y rest ih =>
    intro acc
    rw [List.foldl_cons]
    by_cases hy : y ∈ acc
    · rw [dedupAppend_of_mem hy]
      obtain ⟨l', heq, hsub⟩ := ih acc
      exact ⟨l', heq, hsub.cons y⟩
    · rw [dedupAppend_of_not_mem hy]
      obtain ⟨l', heq, hsub⟩ := ih (acc ++ [y])
      refine ⟨y :: l', ?_, hsub.cons₂ y⟩
      rw [heq, List.append_assoc]
      rfl

/-- The instrumented inner loop returns the uninstrumented accumulator
together with one comparison per member visited: the code evaluates the
company-name test for every member, matching or not. -/
theorem foldl_count_inner (c : String) (t : Team) :
    ∀ (ms : List User) (acc : List Team × Nat),
      ms.foldl
          (fun acc2 member =>
            if member.company.name = c ∧ t ∉ acc2.1 then (acc2.1 ++ [t], acc2.2 + 1)
            else (acc2.1, acc2.2 + 1)) acc =
        (ms.foldl (memberStep c t) acc.1, acc.2 + ms.length) := by
  intro ms
  induction ms with
  | nil => intro acc; simp
  | cons m rest ih =>
    intro acc
    rw [List.foldl_cons, List.foldl_cons]
    by_cases hm : m.company.name = c ∧ t ∉ acc.1
    · rw [if_pos hm, ih]
      have hstep : memberStep c t acc.1 m = acc.1 ++ [t] := by
        unfold memberStep
        rw [if_pos hm]
      rw [hstep]
      simp only [Prod.mk.injEq, List.length_cons]
      exact ⟨trivial, by omega⟩
    · rw [if_neg hm, ih]
      have hstep : memberStep c t acc.1 m = acc.1 := by
        unfold memberStep
        rw [if_neg hm]
      rw [hstep]
      simp only [Prod.mk.injEq, List.length_cons]
      exact ⟨trivial, by omega⟩

/-- The instrumented nested scan returns the uninstrumented team list and
a count equal to the total number of members over the teams scanned. -/
theorem foldl_count_outer (s : Store) (c : String) :
    ∀ (teams : List Team) (acc : List Team × Nat),
      teams.foldl
          (fun acc team => (Team.members s team).foldl
            (fun acc2 member =>
              if member.company.name = c ∧ team ∉ acc2.1 then (acc2.1 ++ [team], acc2.2 + 1)
              else (acc2.1, acc2.2 + 1)) acc) acc =
        (teams.foldl
          (fun filtered team => (Team.members s team).foldl (memberStep c team) filtered) acc.1,
         acc.2 + (teams.map (fun t => (Team.members s t).length)).sum) := by
  intro teams
  induction teams with
  | nil => intro acc; simp
  | cons t rest ih =>
    intro acc
    rw [List.foldl_cons, List.foldl_cons, foldl_count_inner c t _ acc, ih]
    simp only [Prod.mk.injEq, List.map_cons, List.sum_cons]
    exact ⟨trivial, by omega⟩

/-- The team list computed by the spec's short-circuiting scan is the one
computed by the code's full scan. -/
theorem spec_scan_fst (s : Store) (c : String) :
    ∀ (teams : List Team) (acc : List Team × Nat),
      (teams.foldl
          (fun acc team =>
            (if (∃ u ∈ Team.members s team, u.company.name = c) ∧ team ∉ acc.1
               then acc.1 ++ [team] else acc.1,
             acc.2 + members_short_scan (Team.members s team) c)) acc).1 =
        teams.foldl
          (fun filtered team => (Team.members s team).foldl (memberStep c team) filtered)
          acc.1 := by
  intro teams
  induction teams with
  | nil => intro acc; rfl
  | cons t rest ih =>
    intro acc
    rw [List.foldl_cons, List.foldl_cons, ih]
    congr 1
    by_cases hmem : t ∈ acc.1
    · rw [foldl_memberStep_of_mem c t _ _ hmem, if_neg]
      intro hc
      exact hc.2 hmem
    · rw [foldl_memberStep_of_not_mem c t _ _ hmem]
      by_cases hex : ∃ u ∈ Team.members s t, u.company.name = c
      · have hany : (Team.members s t).any (fun u => u.company.name == c) = true := by
          rw [List.any_eq_true]
          obtain ⟨u, hu, he⟩ := hex
          exact ⟨u, hu, by simp [he]⟩
        rw [if_pos ⟨hex, hmem⟩, if_pos hany]
      · have hany : (Team.members s t).any (fun u => u.company.name == c) ≠ true := by
          simp only [ne_eq, List.any_eq_true]
          rintro ⟨u, hu, he⟩
          exact hex ⟨u, hu, by simpa using he⟩
        rw [if_neg (fun hc => hex hc.1), if_neg hany]

/-- On a well-formed document the member loop succeeds: since every
freshly constructed `Company` object has a new identity, the membership
test never fires and every construction is staged, in order. -/
theorem stageMembers_toRaw_ok :
    ∀ (ms : List Member) (i : Nat) (cs : List NewCompany) (us : List NewUser),
      (∀ c ∈ cs, c.pyId < i) →
      stageMembers (ms.map Member.toRaw) i cs us =
        .ok (cs ++ companiesFrom ms i, us ++ usersFrom ms i) := by
  intro ms
  induction ms with
  | nil =>
    intro i cs us _
    simp [stageMembers, companiesFrom, usersFrom]
  | cons m rest ih =>
    intro i cs us h
    have hany : cs.any (fun c => companyEq c ⟨i, m.company⟩) = false := by
      rw [List.any_eq_false]
      intro c hc
      have hlt := h c hc
      simp only [companyEq, beq_iff_eq]
      show ¬c.pyId = i
      omega
    have hle : ∀ c ∈ cs ++ [(⟨i, m.company⟩ : NewCompany)], c.pyId < i + 1 := by
      intro c hc
      rcases List.mem_append.mp hc with hc | hc
      · have := h c hc
        omega
      · rcases List.mem_singleton.mp hc with rfl
        exact Nat.lt_succ_self i
    have hrec := ih (i + 1) (cs ++ [⟨i, m.company⟩])
      (us ++ [⟨m.name, m.email, ⟨i, m.company⟩⟩]) hle
    simp only [List.map_cons, stageMembers, Member.toRaw, hany, Bool.false_eq_true, if_false,
      companiesFrom, usersFrom]
    rw [hrec]
    simp [List.append_assoc]

/-- `add_post_json` on a well-formed document: every key read succeeds and
the constructed team, companies and users are persisted in one step. -/
theorem add_post_json_toRaw (d : Doc) (s : Store) :
    add_post_json d.toRaw s =
      .ok (persist s d.name (companiesFrom d.members 0) (usersFrom d.members 0)) := by
  simp only [add_post_json, Doc.toRaw]
  rw [stageMembers_toRaw_ok d.members 0 [] [] (by intro c hc; cases hc)]
  simp

/-- Committed company rows keep the staged names, in order. -/
theorem assignCompanyIds_map_name :
    ∀ (cs : List NewCompany) (base : Nat),
      (assignCompanyIds cs base).map Company.name = cs.map NewCompany.name := by
  intro cs
  induction cs with
  | nil => intro base; rfl
  | cons c rest ih => intro base; simp [assignCompanyIds, ih]

/-- One committed company row per staged company. -/
theorem assignCompanyIds_length :
    ∀ (cs : List NewCompany) (base : Nat), (assignCompanyIds cs base).length = cs.length := by
  intro cs
  induction cs with
  | nil => intro base; rfl
  | cons c rest ih => intro base; simp [assignCompanyIds, ih]

/-- The member loop constructs one company per member, carrying the
member's company name. -/
theorem companiesFrom_map_name :
    ∀ (ms : List Member) (i : Nat),
      (companiesFrom ms i).map NewCompany.name = ms.map Member.company := by
  intro ms
  induction ms with
  | nil => intro i; rfl
  | cons m rest ih => intro i; simp [companiesFrom, ih]

/-- One constructed company per member entry. -/
theorem companiesFrom_length :
    ∀ (ms : List Member) (i : Nat), (companiesFrom ms i).length = ms.length := by
  intro ms
  induction ms with
  | nil => intro i; rfl
  | cons m rest ih => intro i; simp [companiesFrom, ih]

/-- The constructed users carry the members' names and emails, in order. -/
theorem usersFrom_map_name_email :
    ∀ (ms : List Member) (i : Nat),
      (usersFrom ms i).map (fun u => (u.name, u.email)) =
        ms.map (fun m => (m.name, m.email)) := by
  intro ms
  induction ms with
  | nil => intro i; rfl
  | cons m rest ih => intro i; simp [usersFrom, ih]

/-- Committed user rows keep the staged names and emails, in order. -/
theorem assignUserIds_map_name_email :
    ∀ (staged : List NewCompany) (cbase tid : Nat) (us : List NewUser) (ubase : Nat),
      (assignUserIds staged cbase tid us ubase).map (fun u => (u.name, u.email)) =
        us.map (fun u => (u.name, u.email)) := by
  intro staged cbase tid us
  induction us with
  | nil => intro ubase; rfl
  | cons u rest ih => intro ubase; simp [assignUserIds, ih]

/-- Every committed user row of one ingestion call references the new
team. -/
theorem assignUserIds_teamId :
    ∀ (staged : List NewCompany) (cbase tid : Nat) (us : List NewUser) (ubase : Nat),
      ∀ u ∈ assignUserIds staged cbase tid us ubase, u.teamId = tid := by
  intro staged cbase tid us
  induction us with
  | nil => intro ubase u hu; cases hu
  | cons v rest ih =>
    intro ubase u hu
    rcases List.mem_cons.mp hu with rfl | hu
    · rfl
    · exact ih (ubase + 1) u hu

/-- Every element of a list of naturals is bounded by its `max` fold. -/
theorem le_foldr_max : ∀ (l : List Nat) (x : Nat), x ∈ l → x ≤ l.foldr max 0 := by
  intro l
  induction l with
  | nil => intro x h; cases h
  | cons y rest ih =>
    intro x h
    rcases List.mem_cons.mp h with rfl | h
    · exact le_max_left _ _
    · exact le_trans (ih x h) (le_max_right _ _)

/-- The id the store assigns to the new team is fresh: larger than every
persisted team id. -/
theorem freshTeamId_gt (s : Store) (t : Team) (ht : t ∈ s.teams) :
    t.id < freshTeamId s := by
  unfold freshTeamId
  have hmem : t.id ∈ s.teams.map Team.id := List.mem_map_of_mem _ ht
  have := le_foldr_max _ _ hmem
  omega

/-- After the persist step, the new team's member collection is exactly
the user rows committed by this call, in staging order: old users cannot
reference the fresh team id. -/
theorem members_after_persist (s : Store) (hwf : Store.WF s) (tname : String)
    (cs : List NewCompany) (us : List NewUser) :
    Team.members (persist s tname cs us) ⟨freshTeamId s, tname⟩ =
      assignUserIds cs (freshCompanyId s) (freshTeamId s) us (freshUserId s) := by
  unfold Team.members persist
  simp only []
  rw [List.filter_append]
  have h1 : s.users.filter
      (fun u => u.teamId == (Team.mk (freshTeamId s) tname).id) = [] := by
    rw [List.filter_eq_nil_iff]
    intro u hu
    obtain ⟨t, ht, heq⟩ := hwf u hu
    have hlt := freshTeamId_gt s t ht
    simp only [beq_iff_eq]
    intro hcontra
    rw [heq] at hcontra
    omega
  have h2 : (assignUserIds cs (freshCompanyId s) (freshTeamId s) us (freshUserId s)).filter
      (fun u => u.teamId == (Team.mk (freshTeamId s) tname).id) =
      assignUserIds cs (freshCompanyId s) (freshTeamId s) us (freshUserId s) := by
    rw [List.filter_eq_self]
    intro u hu
    have := assignUserIds_teamId cs (freshCompanyId s) (freshTeamId s) us (freshUserId s) u hu
    simp [this]
  rw [h1, h2, List.nil_append]

/-- A missing member key makes the member loop raise that key's
`KeyError`, whatever has been staged so far. -/
theorem stageMembers_error :
    ∀ (ms : List RawMember) (f : String), firstMissingMemberKey ms = some f →
      ∀ (i : Nat) (cs : List NewCompany) (us : List NewUser),
        stageMembers ms i cs us = .error f := by
  intro ms
  induction ms with
  | nil =>
    intro f h
    simp [firstMissingMemberKey] at h
  | cons m rest ih =>
    intro f h i cs us
    cases hcm : m.company with
    | none =>
      simp only [firstMissingMemberKey, hcm, if_pos, Option.some.injEq] at h
      subst h
      simp [stageMembers, hcm]
    | some cname =>
      cases hnm : m.name with
      | none =>
        simp only [firstMissingMemberKey, hcm, hnm] at h
        simp only [reduceCtorEq, if_false, if_pos, Option.some.injEq] at h
        subst h
        simp [stageMembers, hcm, hnm]
      | some uname =>
        cases hem : m.email with
        | none =>
          simp only [firstMissingMemberKey, hcm, hnm, hem] at h
          simp only [reduceCtorEq, if_false, if_pos, Option.some.injEq] at h
          subst h
          simp [stageMembers, hcm, hnm, hem]
        | some em =>
          simp only [firstMissingMemberKey, hcm, hnm, hem, reduceCtorEq, if_false] at h
          simp only [stageMembers, hcm, hnm, hem]
          exact ih f h (i + 1) _ _

/-- The `k`-th company constructed by the member loop carries identity
`i + k`. -/
theorem companiesFrom_pyId_get :
    ∀ (ms : List Member) (i k : Nat) (hk : k < (companiesFrom ms i).length),
      ((companiesFrom ms i).get ⟨k, hk⟩).pyId = i + k := by
  intro ms
  induction ms with
  | nil =>
    intro i k hk
    simp [companiesFrom] at hk
  | cons m rest ih =>
    intro i k hk
    cases k with
    | zero => rfl
    | succ k =>
      have hk' : k < (companiesFrom rest (i + 1)).length := by
        simp only [companiesFrom, List.length_cons] at hk
        exact Nat.lt_of_succ_lt_succ hk
      show ((companiesFrom rest (i + 1)).get ⟨k, hk'⟩).pyId = i + (k + 1)
      rw [ih (i + 1) k hk']
      omega

/-- Companies constructed before the `k`-th iteration have identities
below `i + k`. -/
theorem companiesFrom_take_pyId_lt :
    ∀ (ms : List Member) (i k : Nat), ∀ c ∈ (companiesFrom ms i).take k, c.pyId < i + k := by
  intro ms
  induction ms with
  | nil =>
    intro i k c hc
    simp [companiesFrom] at hc
  | cons m rest ih =>
    intro i k c hc
    cases k with
    | zero => simp at hc
    | succ k =>
      simp only [companiesFrom, List.take_succ_cons] at hc
      rcases List.mem_cons.mp hc with rfl | hc
      · show i < i + (k + 1)
        omega
      · have := ih (i + 1) k c hc
        omega

/-- C1: for every company name `c`, `get_team_by_company` returns exactly
the persisted teams having at least one member whose company's name equals
`c`; each qualifying team appears at most once; and when no persisted
user's company has that name the result is the empty sequence. -/
theorem get_team_by_company_correct (s : Store) (c : String) :
    (∀ t, t ∈ get_team_by_company s c ↔
        t ∈ s.teams ∧ ∃ u ∈ Team.members s t, u.company.name = c) ∧
    (get_team_by_company s c).Nodup ∧
    ((∀ u ∈ s.users, u.company.name ≠ c) → get_team_by_company s c = []) := by
  have hchar := get_team_by_company_eq_dedupFirst s c
  refine ⟨?_, ?_, ?_⟩
  · intro t
    rw [hchar]
    unfold dedupFirst
    rw [mem_foldl_dedupAppend]
    have hiff : t ∈ (get_all_teams s).filter (team_has_company_member s c) ↔
        t ∈ s.teams ∧ ∃ u ∈ Team.members s t, u.company.name = c := by
      rw [List.mem_filter]
      unfold team_has_company_member get_all_teams
      rw [List.any_eq_true]
      simp [beq_iff_eq]
    constructor
    · rintro (hx | hx)
      · cases hx
      · exact hiff.mp hx
    · intro hx
      exact Or.inr (hiff.mpr hx)
  · rw [hchar]
    exact nodup_foldl_dedupAppend _ [] List.nodup_nil
  · intro h
    rw [hchar]
    have hnil : (get_all_teams s).filter (team_has_company_member s c) = [] := by
      rw [List.filter_eq_nil_iff]
      intro t _
      unfold team_has_company_member
      simp only [List.any_eq_true, beq_iff_eq, not_exists, not_and]
      intro u hu
      unfold Team.members at hu
      have hus : u ∈ s.users := (List.mem_filter.mp hu).1
      exact h u hus
    rw [hnil]
    rfl

/-- C1 witness: a concrete store with one user whose company is
"Ruthless": queried for "Ruthless" the team is found once; queried for
"Acme" the result is empty. -/
theorem get_team_by_company_correct_witness :
    (∀ t, t ∈ get_team_by_company
          ⟨[⟨1, "NWA"⟩], [⟨1, "Ice", "ice@x", 1, ⟨1, "Ruthless"⟩⟩], [⟨1, "Ruthless"⟩]⟩ "Acme" ↔
        t ∈ [(⟨1, "NWA"⟩ : Team)] ∧
          ∃ u ∈ Team.members
              ⟨[⟨1, "NWA"⟩], [⟨1, "Ice", "ice@x", 1, ⟨1, "Ruthless"⟩⟩], [⟨1, "Ruthless"⟩]⟩ t,
            u.company.name = "Acme") ∧
    (get_team_by_company
        ⟨[⟨1, "NWA"⟩], [⟨1, "Ice", "ice@x", 1, ⟨1, "Ruthless"⟩⟩], [⟨1, "Ruthless"⟩]⟩ "Acme").Nodup ∧
    get_team_by_company
        ⟨[⟨1, "NWA"⟩], [⟨1, "Ice", "ice@x", 1, ⟨1, "Ruthless"⟩⟩], [⟨1, "Ruthless"⟩]⟩ "Acme" = [] := by
  have h := get_team_by_company_correct
    ⟨[⟨1, "NWA"⟩], [⟨1, "Ice", "ice@x", 1, ⟨1, "Ruthless"⟩⟩], [⟨1, "Ruthless"⟩]⟩ "Acme"
  exact ⟨h.1, h.2.1, h.2.2 (by decide)⟩

/-- C10: the deduplicated result of `get_team_by_company` keeps the first
qualifying occurrence of each team and is a subsequence of
`get_all_teams`, in the same relative order. -/
theorem get_team_by_company_sublist_all_teams (s : Store) (c : String) :
    get_team_by_company s c =
      dedupFirst ((get_all_teams s).filter (team_has_company_member s c)) ∧
    (get_team_by_company s c).Sublist (get_all_teams s) := by
  refine ⟨get_team_by_company_eq_dedupFirst s c, ?_⟩
  rw [get_team_by_company_eq_dedupFirst s c]
  unfold dedupFirst
  obtain ⟨l', heq, hsub⟩ :=
    foldl_dedupAppend_append_sublist ((get_all_teams s).filter (team_has_company_member s c)) []
  rw [heq, List.nil_append]
  exact hsub.trans (List.filter_sublist _)

/-- C6: `get_team_by_name` returns all and only the persisted teams whose
name equals the argument exactly; with no such team the result is empty
and serializes to the JSON text `[]`. -/
theorem get_team_by_name_correct (s : Store) (n : String) :
    (∀ t, t ∈ get_team_by_name s n ↔ t ∈ s.teams ∧ t.name = n) ∧
    ((∀ t ∈ s.teams, t.name ≠ n) →
      get_team_by_name s n = [] ∧ teams_to_json s (get_team_by_name s n) = "[]") := by
  constructor
  · intro t
    unfold get_team_by_name
    rw [List.mem_filter]
    simp [beq_iff_eq]
  · intro h
    have hnil : get_team_by_name s n = [] := by
      unfold get_team_by_name
      rw [List.filter_eq_nil_iff]
      intro t ht
      simp only [beq_iff_eq]
      exact h t ht
    refine ⟨hnil, ?_⟩
    rw [hnil]
    rfl

/-- C6 witness: a store holding only a team "NWA", queried for
"DoesNotExist". -/
theorem get_team_by_name_correct_witness :
    (∀ t, t ∈ get_team_by_name ⟨[⟨1, "NWA"⟩], [], []⟩ "DoesNotExist" ↔
        t ∈ [(⟨1, "NWA"⟩ : Team)] ∧ t.name = "DoesNotExist") ∧
    get_team_by_name ⟨[⟨1, "NWA"⟩], [], []⟩ "DoesNotExist" = [] ∧
    teams_to_json ⟨[⟨1, "NWA"⟩], [], []⟩
      (get_team_by_name ⟨[⟨1, "NWA"⟩], [], []⟩ "DoesNotExist") = "[]" := by
  have h := get_team_by_name_correct ⟨[⟨1, "NWA"⟩], [], []⟩ "DoesNotExist"
  exact ⟨h.1, h.2 (by decide)⟩

/-- C3: after a well-formed document is ingested and persisted,
`get_team_by_name` on the document's name returns a team whose members'
names and emails are exactly those of the document's member entries, in
order.  Referential integrity of the prior store rules out stale rows
pointing at the fresh team id. -/
theorem ingest_then_find_by_name (d : Doc) (s : Store) (hwf : Store.WF s) :
    ∃ s', add_post_json d.toRaw s = .ok s' ∧
      ∃ t ∈ get_team_by_name s' d.name,
        (Team.members s' t).map (fun u => (u.name, u.email)) =
          d.members.map (fun m => (m.name, m.email)) := by
  refine ⟨_, add_post_json_toRaw d s, ⟨freshTeamId s, d.name⟩, ?_, ?_⟩
  · unfold get_team_by_name persist
    refine List.mem_filter.mpr ⟨?_, ?_⟩
    · exact List.mem_append.mpr (Or.inr (by simp))
    · simp
  · rw [members_after_persist s hwf d.name _ _]
    rw [assignUserIds_map_name_email, usersFrom_map_name_email]

/-- C3 witness: ingesting a two-member document into the empty store and
looking the team up again by name. -/
theorem ingest_then_find_by_name_witness :
    ∃ s', add_post_json
        (Doc.toRaw ⟨"NWA", [⟨"Ice Cube", "icecube@gmail.com", "Ruthless_Records"⟩,
          ⟨"MC Ren", "ren@hotmail.com", "Ruthless_Records"⟩]⟩) ⟨[], [], []⟩ = .ok s' ∧
      ∃ t ∈ get_team_by_name s' "NWA",
        (Team.members s' t).map (fun u => (u.name, u.email)) =
          [("Ice Cube", "icecube@gmail.com"), ("MC Ren", "ren@hotmail.com")] :=
  ingest_then_find_by_name
    ⟨"NWA", [⟨"Ice Cube", "icecube@gmail.com", "Ruthless_Records"⟩,
      ⟨"MC Ren", "ren@hotmail.com", "Ruthless_Records"⟩]⟩
    ⟨[], [], []⟩ (by intro u hu; cases hu)

/-- C9: a well-formed document with `n` member entries stages exactly `n`
new companies — one per member, even when several members share a company
name — because the fresh objects are never identified by the membership
test. -/
theorem add_post_json_company_per_member (d : Doc) (s : Store) :
    ∃ s', add_post_json d.toRaw s = .ok s' ∧
      s'.companies.map Company.name =
        s.companies.map Company.name ++ d.members.map Member.company ∧
      s'.companies.length = s.companies.length + d.members.length := by
  refine ⟨_, add_post_json_toRaw d s, ?_, ?_⟩
  · unfold persist
    rw [List.map_append, assignCompanyIds_map_name, companiesFrom_map_name]
  · unfold persist
    rw [List.length_append, assignCompanyIds_length, companiesFrom_length]

/-- C2: the `k`-th company constructed in one ingestion call is staged
exactly when it is not equal — under the objects' own equality check,
which is object identity — to a company constructed earlier in the same
call (and identity never relates two constructions, so it is always
staged); and the staged company names are read from the document alone,
never from the persisted companies of the store. -/
theorem add_post_json_dedup_in_call (d : Doc) (k : Nat)
    (hk : k < (companiesFrom d.members 0).length) :
    ((companiesFrom d.members 0).get ⟨k, hk⟩ ∈ stagedCompanies d ↔
      ¬∃ c' ∈ (companiesFrom d.members 0).take k,
        companyEq c' ((companiesFrom d.members 0).get ⟨k, hk⟩) = true) ∧
    ∀ s : Store, ∃ s', add_post_json d.toRaw s = .ok s' ∧
      (s'.companies.map Company.name).drop s.companies.length =
        d.members.map Member.company := by
  constructor
  · have hstaged : stagedCompanies d = companiesFrom d.members 0 := by
      unfold stagedCompanies
      rw [stageMembers_toRaw_ok d.members 0 [] [] (by intro c hc; cases hc)]
      simp
    have hnotearlier : ¬∃ c' ∈ (companiesFrom d.members 0).take k,
        companyEq c' ((companiesFrom d.members 0).get ⟨k, hk⟩) = true := by
      rintro ⟨c', hc', heq⟩
      have hlt := companiesFrom_take_pyId_lt d.members 0 k c' hc'
      have hid := companiesFrom_pyId_get d.members 0 k hk
      unfold companyEq at heq
      rw [beq_iff_eq] at heq
      omega
    constructor
    · intro _
      exact hnotearlier
    · intro _
      rw [hstaged]
      exact List.get_mem _ k hk
  · intro s
    refine ⟨_, add_post_json_toRaw d s, ?_⟩
    unfold persist
    rw [List.map_append]
    have hlen : s.companies.length = (s.companies.map Company.name).length :=
      (List.length_map _ _).symm
    rw [hlen, List.drop_left, assignCompanyIds_map_name, companiesFrom_map_name]

/-- C2 witness: a document whose two members share the company name
"Ruthless_Records"; the second constructed company (index 1) is still
staged, and staging is independent of the store contents. -/
theorem add_post_json_dedup_in_call_witness :
    ((companiesFrom [(⟨"Ice", "ice@x", "Ruthless_Records"⟩ : Member),
          ⟨"Ren", "ren@x", "Ruthless_Records"⟩] 0).get ⟨1, by decide⟩ ∈
        stagedCompanies ⟨"NWA", [⟨"Ice", "ice@x", "Ruthless_Records"⟩,
          ⟨"Ren", "ren@x", "Ruthless_Records"⟩]⟩ ↔
      ¬∃ c' ∈ (companiesFrom [(⟨"Ice", "ice@x", "Ruthless_Records"⟩ : Member),
          ⟨"Ren", "ren@x", "Ruthless_Records"⟩] 0).take 1,
        companyEq c' ((companiesFrom [(⟨"Ice", "ice@x", "Ruthless_Records"⟩ : Member),
          ⟨"Ren", "ren@x", "Ruthless_Records"⟩] 0).get ⟨1, by decide⟩) = true) ∧
    ∀ s : Store, ∃ s', add_post_json
        (Doc.toRaw ⟨"NWA", [⟨"Ice", "ice@x", "Ruthless_Records"⟩,
          ⟨"Ren", "ren@x", "Ruthless_Records"⟩]⟩) s = .ok s' ∧
      (s'.companies.map Company.name).drop s.companies.length =
        ["Ruthless_Records", "Ruthless_Records"] :=
  add_post_json_dedup_in_call
    ⟨"NWA", [⟨"Ice", "ice@x", "Ruthless_Records"⟩, ⟨"Ren", "ren@x", "Ruthless_Records"⟩]⟩
    1 (by decide)

/-- C8: when the inbound document misses an expected key, `add_post_json`
fails with that key's generic `KeyError` — the key named is the first
missing one in access order — and the failure happens before anything is
added to the session, so the persisted store is unchanged. -/
theorem add_post_json_missing_key (d : RawDoc) (s : Store) (f : String)
    (h : firstMissingKey d = some f) :
    add_post_json d s = .error f ∧ run_add_team d s = s := by
  have herr : add_post_json d s = .error f := by
    cases hn : d.name with
    | none =>
      simp only [firstMissingKey, hn, if_pos, Option.some.injEq] at h
      subst h
      simp [add_post_json, hn]
    | some tname =>
      cases hm : d.members with
      | none =>
        simp only [firstMissingKey, hn, hm, reduceCtorEq, if_false, Option.some.injEq] at h
        subst h
        simp [add_post_json, hn, hm]
      | some ms =>
        simp only [firstMissingKey, hn, hm, reduceCtorEq, if_false] at h
        simp only [add_post_json, hn, hm]
        rw [stageMembers_error ms f h 0 [] []]
  exact ⟨herr, by simp [run_add_team, herr]⟩

/-- C8 witness: a document whose single member lacks the `email` key: the
call fails with the `email` KeyError and the store stays as it was. -/
theorem add_post_json_missing_key_witness :
    add_post_json ⟨some "NWA", some [⟨some "Ice", none, some "Acme"⟩]⟩
        ⟨[⟨7, "GFUNK"⟩], [], []⟩ = .error "email" ∧
    run_add_team ⟨some "NWA", some [⟨some "Ice", none, some "Acme"⟩]⟩
        ⟨[⟨7, "GFUNK"⟩], [], []⟩ = ⟨[⟨7, "GFUNK"⟩], [], []⟩ :=
  add_post_json_missing_key ⟨some "NWA", some [⟨some "Ice", none, some "Acme"⟩]⟩
    ⟨[⟨7, "GFUNK"⟩], [], []⟩ "email" (by decide)

/-- C5: serialization to text happens exactly once, at the outermost
projection: `teams_to_json` dumps its whole result once, embedding each
team's members via `users_to_json` in raw-document mode, which in turn
embeds each user's company via `company_to_json` in raw-document mode; the
dump mode of the helpers is what would wrap a nested document in a string,
and it is used only when a helper is itself the outermost call. -/
theorem serialization_single_dump (s : Store) (ts : List Team) (us : List User) (c : Company) :
    teams_to_json s ts =
      Json.dumps (Json.arr (ts.map (fun t =>
        Json.obj [("id", Json.num t.id), ("name", Json.str t.name),
          ("members", users_to_json (Team.members s t) false)]))) ∧
    users_to_json us false =
      Json.arr (us.map (fun u =>
        Json.obj [("id", Json.num u.id), ("name", Json.str u.name),
          ("company", company_to_json u.company false), ("email", Json.str u.email)])) ∧
    company_to_json c false =
      Json.obj [("name", Json.str c.name), ("id", Json.num c.id)] ∧
    company_to_json c true = Json.str (Json.dumps (company_to_json c false)) ∧
    users_to_json us true = Json.str (Json.dumps (users_to_json us false)) :=
  ⟨rfl, rfl, rfl, rfl, rfl⟩

/-- C7: the wire shapes, fully unfolded: a team document has exactly the
fields `id`, `name`, `members` in that order, its members in the order of
the team's member collection as the store returns it; a user document has
the fields `id`, `name`, `company`, `email` with the company document
embedded inline; a company document has the fields `name`, `id`. -/
theorem projection_wire_shapes (s : Store) (ts : List Team) :
    teams_to_json s ts =
      Json.dumps (Json.arr (ts.map (fun t =>
        Json.obj [("id", Json.num t.id), ("name", Json.str t.name),
          ("members", Json.arr ((Team.members s t).map (fun u =>
            Json.obj [("id", Json.num u.id), ("name", Json.str u.name),
              ("company", Json.obj [("name", Json.str u.company.name),
                ("id", Json.num u.company.id)]),
              ("email", Json.str u.email)])))]))) :=
  rfl

/-- C4 (amended): the code checks every member of every team against the
target company name — the comparison count is the total member count, not
the short-circuit count — but the first qualifying member already adds the
team and later matches change nothing, so the resulting team list equals
that of the spec's short-circuiting scan. -/
theorem member_scan_no_short_circuit (s : Store) (c : String) :
    (get_team_by_company_count s c).1 = get_team_by_company s c ∧
    (get_team_by_company_count s c).2 = totalMemberComparisons s ∧
    (spec_short_circuit_scan s c).1 = get_team_by_company s c := by
  have hcount := foldl_count_outer s c (get_all_teams s) ([], 0)
  refine ⟨?_, ?_, ?_⟩
  · unfold get_team_by_company_count get_team_by_company
    rw [hcount]
  · unfold get_team_by_company_count totalMemberComparisons
    rw [hcount]
    simp
  · exact spec_scan_fst s c (get_all_teams s) ([], 0)

/-- C4 counterexample: a store with one team of two members, both with
company "Acme".  The code compares both members against the target (count
2); a per-team short-circuiting scan would stop after the first (count 1).
So the claim that subsequent members are not re-checked is false of the
code. -/
theorem member_scan_counterexample :
    (get_team_by_company_count
        ⟨[⟨1, "NWA"⟩], [⟨1, "Ice", "ice@x", 1, ⟨1, "Acme"⟩⟩, ⟨2, "Ren", "ren@x", 1, ⟨1, "Acme"⟩⟩],
          [⟨1, "Acme"⟩]⟩ "Acme").2 = 2 ∧
    (spec_short_circuit_scan
        ⟨[⟨1, "NWA"⟩], [⟨1, "Ice", "ice@x", 1, ⟨1, "Acme"⟩⟩, ⟨2, "Ren", "ren@x", 1, ⟨1, "Acme"⟩⟩],
          [⟨1, "Acme"⟩]⟩ "Acme").2 = 1 ∧
    (get_team_by_company_count
        ⟨[⟨1, "NWA"⟩], [⟨1, "Ice", "ice@x", 1, ⟨1, "Acme"⟩⟩, ⟨2, "Ren", "ren@x", 1, ⟨1, "Acme"⟩⟩],
          [⟨1, "Acme"⟩]⟩ "Acme").2 ≠
      (spec_short_circuit_scan
        ⟨[⟨1, "NWA"⟩], [⟨1, "Ice", "ice@x", 1, ⟨1, "Acme"⟩⟩, ⟨2, "Ren", "ren@x", 1, ⟨1, "Acme"⟩⟩],
          [⟨1, "Acme"⟩]⟩ "Acme").2 := by
  refine ⟨by decide, by decide, by decide⟩

end TeamsApp
